import Mathlib

/-!
Verification of the model-selection core of `bipartiteSBM` (det_k_bisbm).

Shallow embedding conventions:
* Python/numpy floats are modelled as exact real numbers; `scipy.special.gammaln`
  applied to a positive integer `m` is `Real.log (Nat.factorial (m - 1))`, so the
  ubiquitous pattern `gammaln(x + 1)` for a count `x : ℕ` is `logFac x` below.
* The merge scorer's log-domain float arithmetic is tracked exactly in the
  exponential domain: a score `Δ` (a signed sum of `log`-factorials) is kept as
  the positive rational `exp Δ`, and the float comparisons `0 ≤ Δ`, `Δ < t`
  become `1 ≤ q`, `q < qt`, which agree with the source comparisons because
  `Real.log` is strictly monotone on positives.
* Block-edge matrices are total functions `ℕ → ℕ → ℕ` read inside an explicit
  dimension bound; numpy loops over `K × K` become sums over `Finset.range`.
* The unbounded `while` loops around the external engine processes are given an
  explicit fuel; running out of fuel represents "still looping".
-/

namespace BipartiteSBM

/-- The float `gammaln(x + 1)` for a nonnegative integer count `x`: the exact value of the
float `scipy.special.gammaln(x + 1) = log Γ(x + 1) = log (x!)`. -/
noncomputable def logFac (n : ℕ) : ℝ := Real.log (Nat.factorial n)

/-- A block-edge matrix, as a total function; entries outside the declared
dimension are irrelevant (every embedded loop reads inside its bound). -/
abbrev Mat : Type := ℕ → ℕ → ℕ

/-- Sum of an `m × n` corner of a matrix (the numpy double loop
`for i in range(m): for j in range(n)`). -/
def sum2 (m n : ℕ) (A : Mat) : ℕ :=
  ∑ i ∈ Finset.range m, ∑ j ∈ Finset.range n, A i j

/-- Total of all entries of a `K × K` matrix (`numpy.sum`). -/
def matSum (K : ℕ) (A : Mat) : ℕ := sum2 K K A

/-- Row sum `e_r = np.sum(ori_e_rs, axis=1)[r]` of a `K × K` matrix. -/
def rowSum (K : ℕ) (A : Mat) (r : ℕ) : ℕ := ∑ j ∈ Finset.range K, A r j

/-! ## `det_k_bisbm/int_part.py`: the restricted-integer-partition cache

`init_q_cache(n_max)` fills a float table with `-inf`, writes `Q[n][1] = 0` for
`1 ≤ n ≤ n_max` and, for `2 ≤ k ≤ n`,
`Q[n][k] = log_sum(Q[n][k], Q[n][k-1])` followed by
`Q[n][k] = log_sum(Q[n][k], Q[n-k][k])` when `n > k`, where
`log_sum(a, b) = max(a,b) + log1p(exp(-|a-b|))` is an exact `logsumexp` in real
semantics.  Every table cell is therefore the natural log of an integer count
(with `-inf` for count `0`), so we embed the table through that count.
`qcF` is the fuel-indexed recurrence; the fuel strictly exceeds `n + k` on
every reachable call, so it never runs out (`qcF_stable`). -/
def qcF : ℕ → ℕ → ℕ → ℕ
  | 0, _, _ => 0
  | fuel + 1, n, k =>
    if n = 0 then 0
    else if k = 0 then 0
    else if k = 1 then 1
    else if n < k then 0
    else qcF fuel n (k - 1) + (if k < n then qcF fuel (n - k) k else 0)

/-- The integer count whose log the cell `Q[n][k]` of the table built by
`init_q_cache` holds (count `0` encodes the `-inf` of an unfilled cell). -/
def q_cache_count (n k : ℕ) : ℕ := qcF (n + k + 1) n k

/-- The table built by `init_q_cache(n_max)`, cell `(n, k)` for `n, k ≤ n_max`,
as an extended real (`⊥` is the float `-inf` of unfilled cells). -/
noncomputable def init_q_cache (n k : ℕ) : EReal :=
  if 0 < q_cache_count n k then ((Real.log (q_cache_count n k) : ℝ) : EReal) else ⊥

/-- The same table viewed as plain reals, for the cells actually read by
`log_q` (all of which hold a positive count, see `one_le_q_cache_count`). -/
noncomputable def q_table (n k : ℕ) : ℝ := Real.log (q_cache_count n k)

/-- The block-edge matrix of the failing input for the virtual-merge scorer:
`K = 3`, `ka = 2`, `kb = 1`, with `e_02 = e_12 = 2` (and the symmetric
entries), zero same-type blocks. -/
def ex_e_rs : Mat := fun i j =>
  if (i = 0 ∨ i = 1) ∧ j = 2 then 2
  else if i = 2 ∧ (j = 0 ∨ j = 1) then 2
  else 0

/-- A concrete symmetric block-edge matrix for `ka = 1`, `kb = 2` (`K = 3`)
with zero same-type blocks, used to instantiate the merge-matrix theorems. -/
def ex_merge_M : Mat := fun i j =>
  if i = 0 ∧ (j = 1 ∨ j = 2) then 1
  else if (i = 1 ∨ i = 2) ∧ j = 0 then 1
  else 0


/-- The function `log_q(n, k, __q_cache)` from `int_part.py`.  The cache argument is the
table produced by `init_q_cache(M)` (shape `M + 1`, so the in-table branch is
`n < M + 1`); the asymptotic fallback `log_q_approx` — a float fixed-point
iteration the claims never evaluate — is abstracted as the argument `approx`. -/
noncomputable def log_q (approx : ℕ → ℕ → ℝ) (M : ℕ) (table : ℕ → ℕ → ℝ)
    (n k : ℤ) : ℝ :=
  if n ≤ 0 ∨ k < 1 then 0
  else
    let k' := if n < k then n else k
    if n < (M : ℤ) + 1 then table n.toNat k'.toNat else approx n.toNat k'.toNat

/-! ## `det_k_bisbm/utils.py`: entropies and the virtual-merge scorer -/

/-- The function `lbinom(n, k)` from `int_part.py`:
`gammaln(n + 1) - gammaln(n - k + 1) - gammaln(k + 1)`, i.e. the log binomial
coefficient, embedded at nonnegative integer arguments. -/
noncomputable def lbinom (n k : ℕ) : ℝ := logFac n - logFac (n - k) - logFac k

/-- The bipartite branch of `partition_entropy` in `utils.py`
(`ka`/`kb` given, `allow_empty=False`):
`lbinom(na-1, ka-1) + lbinom(nb-1, kb-1)
 + (gammaln(na+1) + gammaln(nb+1) - gammaln(nr+1).sum()) + log(na) + log(nb)`. -/
noncomputable def partition_entropy (ka kb na nb : ℕ) (nr : List ℕ) : ℝ :=
  lbinom (na - 1) (ka - 1) + lbinom (nb - 1) (kb - 1)
    + (logFac na + logFac nb - (nr.map logFac).sum)
    + Real.log na + Real.log nb

/-- The value `log Γ(m)` at a positive integer `m`, i.e. `log ((m-1)!)` — used to state
the spec formulas, which are written in terms of `logΓ`. -/
noncomputable def lgammaS (m : ℕ) : ℝ := Real.log (Nat.factorial (m - 1))

/-- The spec's `logC(n, k) = logΓ(n+1) − logΓ(k+1) − logΓ(n−k+1)`. -/
noncomputable def logC_spec (n k : ℕ) : ℝ :=
  lgammaS (n + 1) - lgammaS (k + 1) - lgammaS (n - k + 1)

/-- The spec's bipartite partition term
`logC(n_a − 1, K_a − 1) + logC(n_b − 1, K_b − 1) + logΓ(n_a + 1) + logΓ(n_b + 1)
 − Σ_r logΓ(n_r + 1) + log n_a + log n_b`, stated verbatim for comparison with
the code's `partition_entropy`. -/
noncomputable def partition_dl_spec (ka kb na nb : ℕ) (nr : List ℕ) : ℝ :=
  logC_spec (na - 1) (ka - 1) + logC_spec (nb - 1) (kb - 1)
    + lgammaS (na + 1) + lgammaS (nb + 1) - (nr.map (fun r => lgammaS (r + 1))).sum
    + Real.log na + Real.log nb

/-- The skip condition of the loop body of `virtual_moves_ds`:
`(np.max(mlist) >= ka > np.max(mlist)) or (np.max(mlist) == 0 and ka == 1)
 or (np.max(mlist) == ka and ori_e_rs.shape[0] == 1 + ka)`
(the first, chained, comparison is unsatisfiable but kept verbatim). -/
def virtual_moves_skip (K ka p q : ℕ) : Prop :=
  (ka ≤ max p q ∧ max p q < ka) ∨ (max p q = 0 ∧ ka = 1) ∨ (max p q = ka ∧ K = 1 + ka)

instance (K ka p q : ℕ) : Decidable (virtual_moves_skip K ka p q) := by
  unfold virtual_moves_skip; infer_instance

/-- The merge score `_ds` of one candidate pair in `virtual_moves_ds`, tracked
exactly in the exponential domain (`exp _ds ∈ ℚ`, see the header comment):
`_ds = − Σ_s gammaln(e_ps + e_qs + 1) + Σ_s gammaln(e_ps + 1) + Σ_s gammaln(e_qs + 1)
      + gammaln(e_p + e_q + 1) − gammaln(e_p + 1) − gammaln(e_q + 1)`
where `s` ranges over the slice `ka+1 : size+1` (i.e. `ka+1 ≤ s < K`) when
`max(mlist) < ka`, and over `0 : ka` otherwise (the source reads the two rows
`ori_e_rs[[p, q], cols]` and the row sums `ori_e_r = ori_e_rs.sum(axis=1)`). -/
def virtual_moves_score (M : Mat) (K ka p q : ℕ) : ℚ :=
  let cols : Finset ℕ := if max p q < ka then Finset.Ico (ka + 1) K else Finset.range ka
  ((∏ s ∈ cols, (Nat.factorial (M p s) * Nat.factorial (M q s) : ℕ) : ℕ) : ℚ) /
      ((∏ s ∈ cols, Nat.factorial (M p s + M q s) : ℕ) : ℚ) *
    ((Nat.factorial (rowSum K M p + rowSum K M q) : ℕ) : ℚ) /
    ((Nat.factorial (rowSum K M p) * Nat.factorial (rowSum K M q) : ℕ) : ℚ)

/-- One iteration of the `for _ in mlists` loop of `virtual_moves_ds`.  The
state is `(t, dS, _mlist)` with `t = np.inf` encoded as `none` and the floats
`t`, `dS` carried as `exp t`, `exp dS ∈ ℚ`; the float test `0 <= _ds < t`
becomes `1 ≤ exp _ds` (and `exp _ds < exp t`). -/
def virtual_moves_step (M : Mat) (K ka : ℕ)
    (st : Option ℚ × ℚ × (ℕ × ℕ)) (pair : ℕ × ℕ) : Option ℚ × ℚ × (ℕ × ℕ) :=
  if virtual_moves_skip K ka pair.1 pair.2 then st
  else
    let ds := virtual_moves_score M K ka pair.1 pair.2
    let sel : Bool :=
      match st.1 with
      | none => decide (1 ≤ ds)
      | some t => decide (1 ≤ ds) && decide (ds < t)
    if sel then (some ds, ds, pair) else st

/-- The function `virtual_moves_ds(ori_e_rs, mlists, ka)` from `utils.py`, for a `K × K`
matrix; the candidate set of strings `"p+q"` is modelled as a list of pairs.
Returns `(exp dS, _mlist)`; the float `dS` of the source is the `Real.log` of
the first component (initial `dS = 0.` is `exp dS = 1`). -/
def virtual_moves_ds (M : Mat) (K ka : ℕ) (mlists : List (ℕ × ℕ)) : ℚ × (ℕ × ℕ) :=
  let st := mlists.foldl (virtual_moves_step M K ka) (none, 1, (0, 0))
  (st.2.1, st.2.2)

/-- The Δ of the spec for a virtual merge of the same-type pair `(p, q)`:
`Δ = − Σ_s logΓ(e_ps + e_qs + 1) + Σ_s logΓ(e_ps + 1) + Σ_s logΓ(e_qs + 1)
    + logΓ(e_p + e_q + 1) − logΓ(e_p + 1) − logΓ(e_q + 1)`
with `s` ranging over ALL opposite-type block indices: every `s ∈ [ka, K)` for
a type-a pair, every `s ∈ [0, ka)` for a type-b pair. -/
noncomputable def virtual_merge_dS_spec (M : Mat) (K ka p q : ℕ) : ℝ :=
  let cols : Finset ℕ := if max p q < ka then Finset.Ico ka K else Finset.range ka
  0 - (∑ s ∈ cols, logFac (M p s + M q s)) + (∑ s ∈ cols, logFac (M p s))
    + (∑ s ∈ cols, logFac (M q s))
    + logFac (rowSum K M p + rowSum K M q)
    - logFac (rowSum K M p) - logFac (rowSum K M q)

/-! ## `det_k_bisbm/optimalks.py`: the driver -/

/-- A single `+= 1` on one matrix cell. -/
def bump (M : Mat) (r s : ℕ) : Mat := fun i j => M i j + if i = r ∧ j = s then 1 else 0

/-- The loop body of `OptimalKs.get_m_e_rs_from_mb`: for one edge `(u, v)` it
reads the two block labels, raises (`none`) when they coincide, and otherwise
increments both `m_e_rs[r][s]` and `m_e_rs[s][r]`. -/
def get_m_e_rs_step (mb : List ℕ) (acc : Option Mat) (e : ℕ × ℕ) : Option Mat :=
  match acc with
  | none => none
  | some M =>
    if mb.getD e.1 0 = mb.getD e.2 0 then none
    else some (bump (bump M (mb.getD e.1 0) (mb.getD e.2 0)) (mb.getD e.2 0) (mb.getD e.1 0))

/-- The static method `OptimalKs.get_m_e_rs_from_mb(edgelist, mb)`: builds the `(max(mb)+1)²`
block-edge matrix; `none` models the `ImportError` raised on a same-block
edge.  (The companion row-sum vector the source also returns is `rowSum` of
the result.) -/
def get_m_e_rs_from_mb (edgelist : List (ℕ × ℕ)) (mb : List ℕ) : Option Mat :=
  edgelist.foldl (get_m_e_rs_step mb) (some fun _ _ => 0)

/-- The value `max(mb)` for a partition vector (Python `max` of a nonempty list). -/
def maxLabel (mb : List ℕ) : ℕ := mb.foldr max 0

/-- Row-merge of two adjacent rows `fr`, `fr + 1` of a matrix, as done by the
`for ind_i, _a in enumerate(a)` loops of `merge_matrix`. -/
def mergeRows (fr : ℕ) (A : Mat) : Mat := fun i j =>
  if i < fr then A i j else if i = fr then A i j + A (i + 1) j else A (i + 1) j

/-- The final double loop of `merge_matrix` assembling the `(K-1) × (K-1)`
symmetric matrix `c` from the merged off-diagonal block `b`
(`c[i][j] = bt[i - new_ka][j]` below the block diagonal, `b[i][j - new_ka]`
above it, `0` elsewhere). -/
def assembleC (p q : ℕ) (B : Mat) : Mat := fun i j =>
  if i < p + q ∧ j < p + q then
    if j < p ∧ p ≤ i then B j (i - p)
    else if i < p ∧ p ≤ j then B i (j - p)
    else 0
  else 0

/-- The effective `from_row` of `merge_matrix`: the sampled
`random.choices([0, ka], weights=[ka, kb])` draw (`fromRow0`), overridden to
`ka` when `ka == 1` and to `0` when `kb == 1`. -/
def merge_from_row (ka kb fromRow0 : ℕ) : ℕ :=
  if ka = 1 then ka else if kb = 1 then 0 else fromRow0

/-- Result of `merge_matrix`: `(new_ka, new_kb, c, merge_list)`. -/
structure MergeResult where
  newKa : ℕ
  newKb : ℕ
  c : Mat
  mergeList : ℕ × ℕ

/-- The static method `OptimalKs.merge_matrix(ka, kb, m_e_rs)`.  The two random draws are made
explicit arguments: `fromRow0` is the `random.choices([0, ka], ...)` draw and
`perm` the `np.random.shuffle` permutation of the rows (type-a branch) or
columns (type-b branch) of the off-diagonal block `a = m_e_rs[0:ka, ka:ka+kb]`.
In the type-b branch the block is transposed, merged at row
`from_row - new_ka`, and transposed back (`b = bt`) before assembly; the
degenerate final branch (unreachable for the sampled `from_row`) mirrors the
source's zero-initialised `new_ka = new_kb = 0` fall-through. -/
def merge_matrix (ka kb : ℕ) (M : Mat) (fromRow0 : ℕ) (perm : ℕ → ℕ) : MergeResult :=
  let a : Mat := fun i j => M i (ka + j)
  let fromRow := merge_from_row ka kb fromRow0
  if fromRow = 0 then
    let a2 : Mat := fun i j => a (perm i) j
    let newKa := ka - 1
    let newKb := kb
    let b := mergeRows fromRow a2
    { newKa := newKa, newKb := newKb, c := assembleC newKa newKb b,
      mergeList := (perm fromRow, perm (fromRow + 1)) }
  else if fromRow = ka then
    let aT : Mat := fun i j => a j i
    let a2 : Mat := fun i j => aT (perm i) j
    let newKa := ka
    let newKb := kb - 1
    let braw := mergeRows (fromRow - newKa) a2
    let b : Mat := fun i j => braw j i
    { newKa := newKa, newKb := newKb, c := assembleC newKa newKb b,
      mergeList := (perm (fromRow - ka) + ka, perm (fromRow + 1 - ka) + ka) }
  else
    { newKa := 0, newKb := 0, c := fun _ _ => 0, mergeList := (0, 0) }

/-- The validation performed by `OptimalKs.__init__` (and re-run by
`set_params`): the sequence of `assert` statements, in source order, over the
node types, the initial `(ka, kb)` and the threshold `i_th`.  The edge list is
accepted unexamined (only its length is ever taken), hence the unused
argument.  On success the counted `(n_a, n_b)` are returned. -/
def optimalks_init (types : List ℕ) (_edgelist : List (ℕ × ℕ))
    (init_ka init_kb : ℕ) (i_th : ℚ) : Except String (ℕ × ℕ) :=
  if ¬(0 ≤ i_th ∧ i_th < 1) then .error "Allowed range for i_th is [0, 1)."
  else if ¬(0 < types.countP (fun t => t = 1)) then
    .error "Number of type-a nodes = 0, which is not allowed"
  else if ¬(0 < types.countP (fun t => t = 2)) then
    .error "Number of type-b nodes = 0, which is not allowed"
  else if ¬(init_ka ≤ types.countP (fun t => t = 1)) then
    .error "Number of type-a communities must be smaller than the # nodes in type-a."
  else if ¬(init_kb ≤ types.countP (fun t => t = 2)) then
    .error "Number of type-a communities must be smaller than the # nodes in type-b."
  else if ¬(types.length = types.countP (fun t => t = 1) + types.countP (fun t => t = 2)) then
    .error "num_nodes does not equal num_nodes_a plus num_nodes_b"
  else .ok (types.countP (fun t => t = 1), types.countP (fun t => t = 2))

/-- The setter `OptimalKs.set_adaptive_ratio`: the source performs no validation at all
(`self.adaptive_ratio = float(adaptive_ratio)`), so every value is accepted. -/
def set_adaptive_ratio_ok (_ratio : ℚ) : Except String Unit := .ok ()

/-- An edge with both endpoints of the same type — the spec's "bipartite
violation". -/
def bipartite_violation (types : List ℕ) (edgelist : List (ℕ × ℕ)) : Prop :=
  ∃ e ∈ edgelist, types.getD e.1 0 = types.getD e.2 0

instance (types : List ℕ) (edgelist : List (ℕ × ℕ)) :
    Decidable (bipartite_violation types edgelist) := by
  unfold bipartite_violation; infer_instance

/-! ## `engines/mcmc.py` and `engines/kl.py`: the engine adapters

The spawned process is abstracted as a map from the attempt index to the exit
status (and, for MCMC, the token list parsed from stdout; for KL, the score
and partition files are separate maps indexed by the sweep counter).  The
unbounded `while` loop gets a fuel parameter; `spin` is "still looping". -/

/-- Outcome of an engine adapter call. -/
inductive EngineResult where
  | err (msg : String)
  | ok (partition : List ℤ)
  | spin
  deriving DecidableEq

/-- The `while num_sweep_ < num_sweeps_` loop of `MCMC.engine` (with
`num_sweeps_ = 1`): exit status `-11` raises `RuntimeError` with the action
string appended, status `0` accepts the parsed stdout, and any other status
falls through to another spawn of the same command. -/
def mcmc_engine_go (action : String) (runs : ℕ → ℤ × List ℤ) : ℕ → ℕ → EngineResult
  | 0, _ => .spin
  | fuel + 1, i =>
    if (runs i).1 = -11 then
      .err ("Exception from C++ program during inference! -- " ++ action)
    else if (runs i).1 = 0 then .ok (runs i).2
    else mcmc_engine_go action runs fuel (i + 1)

/-- The adapter `MCMC.engine`, given the behaviour `runs` of the spawned process. -/
def mcmc_engine (action : String) (runs : ℕ → ℤ × List ℤ) (fuel : ℕ) : EngineResult :=
  mcmc_engine_go action runs fuel 0

/-- The lookup `kl_output[max(kl_output)]`: the partition stored under the largest score
key; on a duplicate key the later insertion overwrote the earlier one. -/
def kl_pick_max (acc : List (ℚ × List ℤ)) : List ℤ :=
  (acc.foldl (fun best e =>
    match best with
    | none => some e
    | some b => if b.1 ≤ e.1 then some e else some b) none).elim [] Prod.snd

/-- The `while num_sweep_ < num_sweeps_` loop of `KL.engine` (non-parallel
branch; the parallel branch is unreachable because `__init__` rejects
`kl_is_parallel=True`): `-11` raises with the action string, `0` records
`(score, partition)` of the new sweep index and increments the counter, any
other status spawns again. -/
def kl_engine_go (action : String) (runs : ℕ → ℤ) (score : ℕ → ℚ)
    (part : ℕ → List ℤ) (numSweeps : ℕ) :
    ℕ → ℕ → ℕ → List (ℚ × List ℤ) → EngineResult
  | 0, _, _, _ => .spin
  | fuel + 1, i, numSweep, acc =>
    if numSweep < numSweeps then
      if runs i = -11 then
        .err ("Exception from C++ program during inference! -- " ++ action)
      else if runs i = 0 then
        kl_engine_go action runs score part numSweeps fuel (i + 1) (numSweep + 1)
          (acc ++ [(score (numSweep + 1), part (numSweep + 1))])
      else kl_engine_go action runs score part numSweeps fuel (i + 1) numSweep acc
    else .ok (kl_pick_max acc)

/-- The adapter `KL.engine`, given the behaviour of the spawned process and of the score
and partition files it writes. -/
def kl_engine (action : String) (runs : ℕ → ℤ) (score : ℕ → ℚ)
    (part : ℕ → List ℤ) (numSweeps fuel : ℕ) : EngineResult :=
  kl_engine_go action runs score part numSweeps fuel 0 0 []

/-! ## Properties of the embedded q-cache recurrence -/

theorem qcF_stable : ∀ f g n k, n + k ≤ f → n + k ≤ g → qcF f n k = qcF g n k := by
  intro f
  induction f with
  | zero =>
    intro g n k hf hg
    have hn : n = 0 := by omega
    have hk : k = 0 := by omega
    subst hn; subst hk
    cases g <;> simp [qcF]
  | succ f ih =>
    intro g n k hf hg
    match g with
    | 0 =>
      have hn : n = 0 := by omega
      have hk : k = 0 := by omega
      subst hn; subst hk
      simp [qcF]
    | g + 1 =>
      show qcF (f + 1) n k = qcF (g + 1) n k
      by_cases hn : n = 0
      · simp [qcF, hn]
      by_cases hk : k = 0
      · simp [qcF, hn, hk]
      by_cases hk1 : k = 1
      · simp [qcF, hn, hk, hk1]
      by_cases hnk : n < k
      · simp [qcF, hn, hk, hk1, hnk]
      · have h1 : qcF f n (k - 1) = qcF g n (k - 1) := ih g n (k - 1) (by omega) (by omega)
        have h2 : k < n → qcF f (n - k) k = qcF g (n - k) k := by
          intro h
          exact ih g (n - k) k (by omega) (by omega)
        simp only [qcF, if_neg hn, if_neg hk, if_neg hk1, if_neg hnk, h1]
        by_cases h : k < n
        · rw [if_pos h, if_pos h, h2 h]
        · rw [if_neg h, if_neg h]

/-- The cache recurrence in count form: for `2 ≤ k ≤ n` the filled cell is the
previous column plus, when `n > k`, the cell `(n - k, k)`; when `n = k` the
extra term is the unfilled `Q[0][k] = -inf`, i.e. count `0`. -/
theorem q_cache_count_rec (n k : ℕ) (h2 : 2 ≤ k) (hkn : k ≤ n) :
    q_cache_count n k = q_cache_count n (k - 1) + (if k < n then q_cache_count (n - k) k else 0) := by
  unfold q_cache_count
  rw [show qcF (n + k + 1) n k = qcF (n + k) n (k - 1) +
        (if k < n then qcF (n + k) (n - k) k else 0) by
      simp only [qcF]
      rw [if_neg (by omega), if_neg (by omega), if_neg (by omega), if_neg (by omega)]]
  rw [qcF_stable (n + k) (n + (k - 1) + 1) n (k - 1) (by omega) (by omega)]
  by_cases h : k < n
  · rw [if_pos h, if_pos h, qcF_stable (n + k) (n - k + k + 1) (n - k) k (by omega) (by omega)]
  · rw [if_neg h, if_neg h]

/-- Base column: `Q[n][1] = 0 = log 1` for every `n ≥ 1`. -/
theorem q_cache_count_one (n : ℕ) (h : 1 ≤ n) : q_cache_count n 1 = 1 := by
  unfold q_cache_count
  simp only [qcF]
  rw [if_neg (by omega)]
  simp

/-- Unfilled cells above the diagonal: `Q[n][k] = -inf` (count `0`) for `k > n`. -/
theorem q_cache_count_gt (n k : ℕ) (h : n < k) : q_cache_count n k = 0 := by
  unfold q_cache_count
  cases n with
  | zero => simp [qcF]
  | succ m =>
    simp only [qcF]
    rw [if_neg (by omega), if_neg (by omega)]
    by_cases hk1 : k = 1
    · omega
    · rw [if_neg hk1, if_pos h]

/-- Every cell in the filled triangle `1 ≤ k ≤ n` holds a positive count. -/
theorem one_le_q_cache_count (n k : ℕ) (h1 : 1 ≤ k) (h2 : k ≤ n) :
    1 ≤ q_cache_count n k := by
  induction k with
  | zero => omega
  | succ j ih =>
    by_cases hj : j = 0
    · subst hj
      rw [q_cache_count_one n (by omega)]
    · have hrec := q_cache_count_rec n (j + 1) (by omega) h2
      have hprev : 1 ≤ q_cache_count n j := ih (by omega) (by omega)
      simp only [Nat.add_sub_cancel] at hrec
      omega

/-! ## Claims about the integer-partition cache (C4, C5, C6) -/

/-- C4, counterexample: the table built by `init_q_cache` holds `log 10`, not
`log 8`, at `(10, 3)` — the recurrence drops the `q(0, k) = 1` term when
`n = k` and reads unfilled cells as `-inf`, so its counts match neither the
partitions of `10` into at most `3` parts (14) nor into exactly `3` parts (8). -/
theorem log_q_10_3_is_log_10_not_log_8 :
    log_q (fun _ _ => 0) 10 q_table 10 3 = Real.log 10 ∧
    log_q (fun _ _ => 0) 10 q_table 10 3 ≠ Real.log 8 := by
  have hval : log_q (fun _ _ => 0) 10 q_table 10 3 = Real.log 10 := by
    unfold log_q
    norm_num
    unfold q_table
    rw [show ((10 : ℤ).toNat) = 10 from rfl, show ((3 : ℤ).toNat) = 3 from rfl]
    rw [show q_cache_count 10 3 = 10 from by decide]
    norm_num
  refine ⟨hval, ?_⟩
  rw [hval]
  exact (Real.log_lt_log (by norm_num) (by norm_num)).ne'

/-- C4, amended: for every table size `M ≥ 10` (and any asymptotic fallback),
`log_q(10, 3, Q)` returns the tabulated value `log 10`. -/
theorem log_q_10_3_amended (approx : ℕ → ℕ → ℝ) (M : ℕ) (hM : 10 ≤ M) :
    log_q approx M q_table 10 3 = Real.log 10 := by
  unfold log_q
  rw [if_neg (show ¬((10 : ℤ) ≤ 0 ∨ (3 : ℤ) < 1) by omega)]
  rw [if_pos (show (10 : ℤ) < (M : ℤ) + 1 by omega)]
  unfold q_table
  rw [show ((10 : ℤ).toNat) = 10 from rfl]
  rw [show (if (10:ℤ) < 3 then (10:ℤ) else 3).toNat = 3 from rfl]
  rw [show q_cache_count 10 3 = 10 from by decide]
  norm_num

/-- C4, witness for the amended claim at `M = 10`. -/
theorem log_q_10_3_amended_witness :
    10 ≤ 10 ∧ log_q (fun _ _ => 1) 10 q_table 10 3 = Real.log 10 :=
  ⟨by decide, log_q_10_3_amended (fun _ _ => 1) 10 (by decide)⟩

/-- C5, counterexample: the monotonicity `Q[m][n] ≥ Q[m][n-1]` fails outside
the filled triangle `n ≤ m`: the cell `Q[1][2]` is unfilled (`-inf`) while
`Q[1][1] = 0`. -/
theorem init_q_cache_monotone_counterexample :
    init_q_cache 1 1 = (0 : EReal) ∧ init_q_cache 1 2 = (⊥ : EReal) ∧
    ¬ init_q_cache 1 1 ≤ init_q_cache 1 2 := by
  have h1 : init_q_cache 1 1 = (0 : EReal) := by
    unfold init_q_cache
    rw [if_pos (by decide)]
    rw [show q_cache_count 1 1 = 1 from by decide]
    norm_num
  have h2 : init_q_cache 1 2 = (⊥ : EReal) := by
    unfold init_q_cache
    rw [if_neg (by decide)]
  refine ⟨h1, h2, ?_⟩
  rw [h1, h2]
  simp

/-- C5, amended: restricted to the filled triangle `2 ≤ n ≤ m` the table does
satisfy the spec's invariant: the cell is monotone in `n`, and the recurrence
`Q[m][n] = logsumexp(Q[m][n-1], Q[m-n][n])` (with `Q[0][n] = -inf`) holds —
stated in the exponential domain, where the cell counts satisfy
`count(m, n) = count(m, n-1) + count(m-n, n)` and `count(0, n) = 0`. -/
theorem init_q_cache_invariant (m n : ℕ) (h2 : 2 ≤ n) (hnm : n ≤ m) :
    init_q_cache m (n - 1) ≤ init_q_cache m n ∧
    q_cache_count m n = q_cache_count m (n - 1) + q_cache_count (m - n) n := by
  have hrec := q_cache_count_rec m n h2 hnm
  have hcnt : q_cache_count m n = q_cache_count m (n - 1) + q_cache_count (m - n) n := by
    rcases Nat.lt_or_ge n m with h | h
    · rw [hrec, if_pos h]
    · rw [hrec, if_neg (by omega), show m - n = 0 from by omega]
      have h0 : q_cache_count 0 n = 0 := q_cache_count_gt 0 n (by omega)
      omega
  have hpos1 : 1 ≤ q_cache_count m (n - 1) :=
    one_le_q_cache_count m (n - 1) (by omega) (by omega)
  have hle : q_cache_count m (n - 1) ≤ q_cache_count m n := by omega
  have hpos2 : 1 ≤ q_cache_count m n := le_trans hpos1 hle
  refine ⟨?_, hcnt⟩
  unfold init_q_cache
  rw [if_pos (by omega), if_pos (by omega)]
  rw [EReal.coe_le_coe_iff]
  exact Real.log_le_log (by exact_mod_cast hpos1) (by exact_mod_cast hle)

/-- C5, witness for the amended invariant at `(m, n) = (4, 2)`. -/
theorem init_q_cache_invariant_witness :
    init_q_cache 4 1 ≤ init_q_cache 4 2 ∧
    q_cache_count 4 2 = q_cache_count 4 1 + q_cache_count 2 2 :=
  init_q_cache_invariant 4 2 (by decide) (by decide)

/-- C6: `log_q` returns `0` whenever `m ≤ 0` or `n < 1`, and clamps its second
argument at the first, so every `n ≥ m ≥ 1` yields the value at `(m, m)` —
for every cache table, table size, and asymptotic fallback. -/
theorem log_q_zero_and_clamp :
    (∀ (approx : ℕ → ℕ → ℝ) (M : ℕ) (table : ℕ → ℕ → ℝ) (n k : ℤ),
      n ≤ 0 ∨ k < 1 → log_q approx M table n k = 0) ∧
    (∀ (approx : ℕ → ℕ → ℝ) (M : ℕ) (table : ℕ → ℕ → ℝ) (n k : ℤ),
      1 ≤ n → n ≤ k → log_q approx M table n k = log_q approx M table n n) := by
  constructor
  · intro approx M table n k h
    unfold log_q
    rw [if_pos h]
  · intro approx M table n k h1 h2
    unfold log_q
    rw [if_neg (show ¬(n ≤ 0 ∨ k < 1) by omega),
      if_neg (show ¬(n ≤ 0 ∨ n < 1) by omega)]
    rw [show (if n < k then n else k) = (if n < n then n else n) from by
      split_ifs <;> omega]

/-- C6, witness: a zero-branch instance and a clamp instance. -/
theorem log_q_zero_and_clamp_witness :
    log_q (fun _ _ => 1) 5 q_table (-2) 4 = 0 ∧
    log_q (fun _ _ => 1) 5 q_table 3 7 = log_q (fun _ _ => 1) 5 q_table 3 3 :=
  ⟨log_q_zero_and_clamp.1 (fun _ _ => 1) 5 q_table (-2) 4 (by omega),
   log_q_zero_and_clamp.2 (fun _ _ => 1) 5 q_table 3 7 (by omega) (by omega)⟩

/-! ## Claim about the partition term (C7) -/

/-- C7: for positive `ka ≤ na`, `kb ≤ nb` and a block-size vector summing to
`na + nb`, the bipartite `partition_entropy` (with `allow_empty = False`)
equals the spec's formula
`logC(na−1, ka−1) + logC(nb−1, kb−1) + logΓ(na+1) + logΓ(nb+1)
 − Σ_r logΓ(n_r+1) + log na + log nb` with
`logC(n, k) = logΓ(n+1) − logΓ(k+1) − logΓ(n−k+1)`. -/
theorem partition_entropy_matches_spec (ka kb na nb : ℕ) (nr : List ℕ)
    (hka : 1 ≤ ka) (hkana : ka ≤ na) (hkb : 1 ≤ kb) (hkbnb : kb ≤ nb)
    (hnr : nr.sum = na + nb) :
    partition_entropy ka kb na nb nr = partition_dl_spec ka kb na nb nr := by
  have hg : ∀ m : ℕ, lgammaS (m + 1) = logFac m := by
    intro m
    unfold lgammaS logFac
    norm_num
  have hC : ∀ n k : ℕ, logC_spec n k = lbinom n k := by
    intro n k
    unfold logC_spec lbinom
    rw [hg n, hg k]
    unfold lgammaS logFac
    norm_num
    ring
  have hmap : nr.map (fun r => lgammaS (r + 1)) = nr.map logFac := by
    apply List.map_congr_left
    intro r _
    exact hg r
  unfold partition_entropy partition_dl_spec
  rw [hC, hC, hg na, hg nb, hmap]
  ring

/-- C7, witness at `na = nb = 2`, `ka = kb = 1`, `nr = [2, 2]`. -/
theorem partition_entropy_matches_spec_witness :
    [2, 2].sum = 2 + 2 ∧
    partition_entropy 1 1 2 2 [2, 2] = partition_dl_spec 1 1 2 2 [2, 2] :=
  ⟨by decide,
   partition_entropy_matches_spec 1 1 2 2 [2, 2] (by decide) (by decide) (by decide)
     (by decide) (by decide)⟩

/-! ## Claims about the virtual-merge scorer (C10, C1) -/

theorem virtual_moves_step_ge_one (M : Mat) (K ka : ℕ)
    (st : Option ℚ × ℚ × (ℕ × ℕ)) (pq : ℕ × ℕ) (h : 1 ≤ st.2.1) :
    1 ≤ (virtual_moves_step M K ka st pq).2.1 := by
  unfold virtual_moves_step
  split_ifs with hskip
  · exact h
  · rcases hst : st.1 with _ | t <;> simp only [hst] <;>
      by_cases hd : (1 : ℚ) ≤ virtual_moves_score M K ka pq.1 pq.2 <;>
      simp [hd, h]
    by_cases hlt : virtual_moves_score M K ka pq.1 pq.2 < t <;> simp [hlt, hd, h]

theorem virtual_moves_step_unselected (M : Mat) (K ka : ℕ)
    (st : Option ℚ × ℚ × (ℕ × ℕ)) (pq : ℕ × ℕ)
    (h : virtual_moves_skip K ka pq.1 pq.2 ∨ virtual_moves_score M K ka pq.1 pq.2 < 1) :
    virtual_moves_step M K ka st pq = st := by
  unfold virtual_moves_step
  split_ifs with hskip
  · rfl
  · rcases h with h | h
    · exact absurd h hskip
    · rcases hst : st.1 with _ | t <;> simp only [hst] <;> simp [not_le.mpr h]

theorem virtual_moves_foldl_ge_one (M : Mat) (K ka : ℕ) :
    ∀ (l : List (ℕ × ℕ)) (st : Option ℚ × ℚ × (ℕ × ℕ)), 1 ≤ st.2.1 →
      1 ≤ (l.foldl (virtual_moves_step M K ka) st).2.1 := by
  intro l
  induction l with
  | nil => intro st h; exact h
  | cons pq l ih =>
    intro st h
    rw [List.foldl_cons]
    exact ih _ (virtual_moves_step_ge_one M K ka st pq h)

theorem virtual_moves_foldl_unselected (M : Mat) (K ka : ℕ) :
    ∀ (l : List (ℕ × ℕ)) (st : Option ℚ × ℚ × (ℕ × ℕ)),
      (∀ pq ∈ l, virtual_moves_skip K ka pq.1 pq.2 ∨
        virtual_moves_score M K ka pq.1 pq.2 < 1) →
      l.foldl (virtual_moves_step M K ka) st = st := by
  intro l
  induction l with
  | nil => intro st _; rfl
  | cons pq l ih =>
    intro st h
    rw [List.foldl_cons,
      virtual_moves_step_unselected M K ka st pq (h pq (List.mem_cons_self pq l))]
    exact ih st (fun x hx => h x (List.mem_cons_of_mem pq hx))

/-- C10: `virtual_moves_ds` never reports a negative score — the selected
`dS = log` of the first returned component is always `≥ 0` — and when no
candidate pair passes the type/emptiness guards with a nonnegative score it
returns the initial state `dS = 0` (`exp dS = 1`) with the pair `(0, 0)`,
without resampling or raising. -/
theorem virtual_moves_ds_nonneg_and_default (M : Mat) (K ka : ℕ)
    (mlists : List (ℕ × ℕ)) :
    0 ≤ Real.log ((virtual_moves_ds M K ka mlists).1 : ℝ) ∧
    ((∀ pq ∈ mlists, virtual_moves_skip K ka pq.1 pq.2 ∨
        virtual_moves_score M K ka pq.1 pq.2 < 1) →
      virtual_moves_ds M K ka mlists = (1, (0, 0))) := by
  constructor
  · have h1 : 1 ≤ (virtual_moves_ds M K ka mlists).1 := by
      unfold virtual_moves_ds
      exact virtual_moves_foldl_ge_one M K ka mlists (none, 1, (0, 0)) le_rfl
    apply Real.log_nonneg
    exact_mod_cast h1
  · intro h
    unfold virtual_moves_ds
    rw [virtual_moves_foldl_unselected M K ka mlists (none, 1, (0, 0)) h]

/-- C10, witness: at `K = ka = 1` the only candidate `(0, 0)` is guarded out
and the scorer returns `(exp 0, (0, 0))`. -/
theorem virtual_moves_ds_nonneg_and_default_witness :
    0 ≤ Real.log ((virtual_moves_ds (fun _ _ => 0) 1 1 [(0, 0)]).1 : ℝ) ∧
    virtual_moves_ds (fun _ _ => 0) 1 1 [(0, 0)] = (1, (0, 0)) :=
  ⟨(virtual_moves_ds_nonneg_and_default (fun _ _ => 0) 1 1 [(0, 0)]).1,
   (virtual_moves_ds_nonneg_and_default (fun _ _ => 0) 1 1 [(0, 0)]).2
     (by
       intro pq hpq
       rw [List.mem_singleton] at hpq
       subst hpq
       exact Or.inl (by decide))⟩

/-- C1, the code's score of the failing input: the pair `(0, 1)` is type-a
(`ka = 2`), so the source slices columns `ka+1 : K`, which is empty here, and
the score reduces to `gammaln(e_0+e_1+1) - gammaln(e_0+1) - gammaln(e_1+1)
= log 4! - log 2! - log 2! = log 6`. -/
theorem virtual_moves_score_ex : virtual_moves_score ex_e_rs 3 2 0 1 = 6 := by
  unfold virtual_moves_score
  rw [if_pos (by decide)]
  rw [show Finset.Ico 3 3 = (∅ : Finset ℕ) from by decide]
  rw [show rowSum 3 ex_e_rs 0 = 2 from by decide,
    show rowSum 3 ex_e_rs 1 = 2 from by decide]
  norm_num [Nat.factorial]

/-- C1: on the failing input the scorer returns score `exp dS = 6`
(i.e. `dS = log 6 ≠ 0`) for the type-a pair `(0, 1)`, whereas the claimed
formula — `s` ranging over ALL opposite-type indices `ka ≤ s < K` — yields
`Δ = 0`: the code omits the opposite-type column `s = ka` for type-a pairs. -/
theorem virtual_moves_ds_omits_column_ka :
    virtual_moves_ds ex_e_rs 3 2 [(0, 1)] = (6, (0, 1)) ∧
    virtual_merge_dS_spec ex_e_rs 3 2 0 1 = 0 ∧
    Real.log ((6 : ℚ) : ℝ) ≠ 0 := by
  refine ⟨?_, ?_, ?_⟩
  · unfold virtual_moves_ds
    rw [List.foldl_cons, List.foldl_nil]
    unfold virtual_moves_step
    rw [if_neg (show ¬virtual_moves_skip 3 2 (0, 1).1 (0, 1).2 from by decide)]
    simp only [virtual_moves_score_ex]
    norm_num
  · unfold virtual_merge_dS_spec
    rw [if_pos (by decide)]
    rw [show Finset.Ico 2 3 = ({2} : Finset ℕ) from by decide]
    rw [show rowSum 3 ex_e_rs 0 = 2 from by decide,
      show rowSum 3 ex_e_rs 1 = 2 from by decide]
    simp only [Finset.sum_singleton]
    rw [show ex_e_rs 0 2 = 2 from by decide, show ex_e_rs 1 2 = 2 from by decide]
    ring
  · rw [show ((6 : ℚ) : ℝ) = 6 from by norm_num]
    exact Real.log_ne_zero_of_pos_of_ne_one (by norm_num) (by norm_num)

/-! ## Claim about the driver's input validation (C8) -/

/-- C8, counterexample: an edge list with a bipartite violation (edge `(0,1)`
inside type a) is accepted by `OptimalKs.__init__` — no edge is ever examined
there — and `set_adaptive_ratio(2)` succeeds although `2 ∉ (0, 1)`. -/
theorem optimalks_validation_counterexample :
    optimalks_init [1, 1, 2] [(0, 1)] 1 1 0 = .ok (2, 1) ∧
    bipartite_violation [1, 1, 2] [(0, 1)] ∧
    set_adaptive_ratio_ok 2 = .ok () ∧
    ¬((0 : ℚ) < 2 ∧ (2 : ℚ) < 1) := by
  refine ⟨?_, by decide, rfl, by norm_num⟩
  unfold optimalks_init
  norm_num

/-- C8, amended: construction (and `set_params`) fails exactly when `n_a = 0`,
`n_b = 0`, `K_a > n_a`, `K_b > n_b`, `i_0 ∉ [0, 1)`, or some type label is
neither `1` nor `2` (so `n_a + n_b ≠ n`); bipartite violations are not checked
at construction, and `set_adaptive_ratio` accepts every value. -/
theorem optimalks_validation_amended (types : List ℕ) (edgelist : List (ℕ × ℕ))
    (ka kb : ℕ) (i_th : ℚ) :
    ((∃ v, optimalks_init types edgelist ka kb i_th = .ok v) ↔
      (0 ≤ i_th ∧ i_th < 1 ∧ 0 < types.countP (fun t => t = 1) ∧
        0 < types.countP (fun t => t = 2) ∧ ka ≤ types.countP (fun t => t = 1) ∧
        kb ≤ types.countP (fun t => t = 2) ∧
        types.length = types.countP (fun t => t = 1) + types.countP (fun t => t = 2))) ∧
    (∀ r : ℚ, set_adaptive_ratio_ok r = .ok ()) := by
  constructor
  · constructor
    · rintro ⟨v, hv⟩
      unfold optimalks_init at hv
      split_ifs at hv with h1 h2 h3 h4 h5 h6 <;> try simp at hv
      exact ⟨h1.1, h1.2, h2, h3, h4, h5, h6⟩
    · rintro ⟨hi0, hi1, hna, hnb, hka, hkb, hlen⟩
      unfold optimalks_init
      rw [if_neg (not_not_intro ⟨hi0, hi1⟩), if_neg (not_not_intro hna),
        if_neg (not_not_intro hnb), if_neg (not_not_intro hka),
        if_neg (not_not_intro hkb), if_neg (not_not_intro hlen)]
      exact ⟨_, rfl⟩
  · intro r
    rfl

/-! ## Claim about the engine adapters (C3) -/

/-- C3, counterexample: a persistent nonzero exit status other than `-11`
(here `1`) makes both adapters spawn the engine again instead of raising — no
fatal error is ever produced, contradicting the claim that every nonzero exit
raises one. -/
theorem engine_nonzero_exit_no_error :
    mcmc_engine "action" (fun _ => (1, [0])) 3 = EngineResult.spin ∧
    kl_engine "action" (fun _ => 1) (fun _ => 0) (fun _ => []) 1 3 = EngineResult.spin ∧
    (1 : ℤ) ≠ 0 := by
  refine ⟨by decide, ?_, by decide⟩
  show kl_engine_go "action" (fun _ => 1) (fun _ => 0) (fun _ => []) 1 3 0 0 [] =
    EngineResult.spin
  norm_num [kl_engine_go]

theorem mcmc_engine_go_ok (action : String) (runs : ℕ → ℤ × List ℤ) :
    ∀ (fuel i : ℕ) (p : List ℤ), mcmc_engine_go action runs fuel i = .ok p →
      ∃ j, (runs j).1 = 0 ∧ p = (runs j).2 := by
  intro fuel
  induction fuel with
  | zero => intro i p h; exact absurd h (by simp [mcmc_engine_go])
  | succ f ih =>
    intro i p h
    unfold mcmc_engine_go at h
    by_cases h11 : (runs i).1 = -11
    · rw [if_pos h11] at h
      exact absurd h (by simp)
    · rw [if_neg h11] at h
      by_cases h0 : (runs i).1 = 0
      · rw [if_pos h0] at h
        exact ⟨i, h0, ((EngineResult.ok.injEq _ _).mp h).symm⟩
      · rw [if_neg h0] at h
        exact ih (i + 1) p h

theorem mcmc_engine_go_spin (action : String) (rc : ℤ) (out : List ℤ)
    (h11 : rc ≠ -11) (h0 : rc ≠ 0) :
    ∀ (fuel i : ℕ), mcmc_engine_go action (fun _ => (rc, out)) fuel i = .spin := by
  intro fuel
  induction fuel with
  | zero => intro i; rfl
  | succ f ih =>
    intro i
    unfold mcmc_engine_go
    rw [if_neg h11, if_neg h0]
    exact ih (i + 1)

theorem kl_engine_go_spin (action : String) (rc : ℤ) (score : ℕ → ℚ)
    (part : ℕ → List ℤ) (ns : ℕ) (hns : 0 < ns) (h11 : rc ≠ -11) (h0 : rc ≠ 0) :
    ∀ (fuel i : ℕ) (acc : List (ℚ × List ℤ)),
      kl_engine_go action (fun _ => rc) score part ns fuel i 0 acc = .spin := by
  intro fuel
  induction fuel with
  | zero => intro i acc; rfl
  | succ f ih =>
    intro i acc
    unfold kl_engine_go
    rw [if_pos hns, if_neg h11, if_neg h0]
    exact ih (i + 1) acc

/-- C3, amended: both adapters raise the fatal `RuntimeError` — whose message
ends with the action string — exactly on exit status `-11`; a partition is
returned only after an exit status `0`; every other nonzero status silently
re-spawns the engine, looping for as long as it persists. -/
theorem engine_error_behavior_amended :
    (∀ (action : String) (runs : ℕ → ℤ × List ℤ) (fuel : ℕ), (runs 0).1 = -11 →
      mcmc_engine action runs (fuel + 1) =
        .err ("Exception from C++ program during inference! -- " ++ action)) ∧
    (∀ (action : String) (runs : ℕ → ℤ × List ℤ) (fuel : ℕ) (p : List ℤ),
      mcmc_engine action runs fuel = .ok p → ∃ j, (runs j).1 = 0 ∧ p = (runs j).2) ∧
    (∀ (action : String) (rc : ℤ) (out : List ℤ) (fuel : ℕ), rc ≠ -11 → rc ≠ 0 →
      mcmc_engine action (fun _ => (rc, out)) fuel = .spin) ∧
    (∀ (action : String) (runs : ℕ → ℤ) (score : ℕ → ℚ) (part : ℕ → List ℤ)
        (ns fuel : ℕ), 0 < ns → runs 0 = -11 →
      kl_engine action runs score part ns (fuel + 1) =
        .err ("Exception from C++ program during inference! -- " ++ action)) ∧
    (∀ (action : String) (rc : ℤ) (score : ℕ → ℚ) (part : ℕ → List ℤ)
        (ns fuel : ℕ), 0 < ns → rc ≠ -11 → rc ≠ 0 →
      kl_engine action (fun _ => rc) score part ns fuel = .spin) := by
  refine ⟨?_, ?_, ?_, ?_, ?_⟩
  · intro action runs fuel h
    show mcmc_engine_go action runs (fuel + 1) 0 = _
    unfold mcmc_engine_go
    rw [if_pos h]
  · intro action runs fuel p h
    exact mcmc_engine_go_ok action runs fuel 0 p h
  · intro action rc out fuel h11 h0
    exact mcmc_engine_go_spin action rc out h11 h0 fuel 0
  · intro action runs score part ns fuel hns h
    show kl_engine_go action runs score part ns (fuel + 1) 0 0 [] = _
    unfold kl_engine_go
    rw [if_pos hns, if_pos h]
  · intro action rc score part ns fuel hns h11 h0
    exact kl_engine_go_spin action rc score part ns hns h11 h0 fuel 0 []

/-- C3, witness for the amended behaviour at concrete run traces. -/
theorem engine_error_behavior_amended_witness :
    mcmc_engine "a" (fun _ => (-11, [])) 1 =
      .err ("Exception from C++ program during inference! -- " ++ "a") ∧
    kl_engine "a" (fun _ => -11) (fun _ => 0) (fun _ => []) 1 1 =
      .err ("Exception from C++ program during inference! -- " ++ "a") ∧
    mcmc_engine "a" (fun _ => (7, [])) 2 = .spin :=
  ⟨engine_error_behavior_amended.1 "a" (fun _ => (-11, [])) 0 (by decide),
   engine_error_behavior_amended.2.2.2.1 "a" (fun _ => -11) (fun _ => 0) (fun _ => [])
     1 0 (by decide) (by decide),
   engine_error_behavior_amended.2.2.1 "a" 7 [] 2 (by decide) (by decide)⟩

/-! ## Matrix-sum lemmas for `get_m_e_rs_from_mb` and `merge_matrix` (C2, C9) -/

theorem sum2_bump (m n : ℕ) (M : Mat) (r s : ℕ) (hr : r < m) (hs : s < n) :
    sum2 m n (bump M r s) = sum2 m n M + 1 := by
  unfold sum2 bump
  have h1 : ∀ i, (∑ j ∈ Finset.range n, (M i j + if i = r ∧ j = s then 1 else 0)) =
      (∑ j ∈ Finset.range n, M i j) + (if i = r then 1 else 0) := by
    intro i
    rw [Finset.sum_add_distrib]
    congr 1
    by_cases hi : i = r
    · subst hi
      rw [if_pos rfl]
      rw [Finset.sum_congr rfl (g := fun j => if j = s then 1 else 0) fun j _ => by
        by_cases hjs : j = s
        · rw [if_pos ⟨rfl, hjs⟩]
          exact (if_pos hjs).symm
        · rw [if_neg fun hc => hjs hc.2]
          exact (if_neg hjs).symm]
      rw [Finset.sum_ite_eq' (Finset.range n) s fun _ => (1 : ℕ),
        if_pos (Finset.mem_range.mpr hs)]
    · simp [hi]
  rw [Finset.sum_congr rfl fun i _ => h1 i, Finset.sum_add_distrib,
    Finset.sum_ite_eq' (Finset.range m) r fun _ => (1 : ℕ),
    if_pos (Finset.mem_range.mpr hr)]

theorem bump2_symm (M : Mat) (r s : ℕ) (h : ∀ i j, M i j = M j i) (i j : ℕ) :
    bump (bump M r s) s r i j = bump (bump M r s) s r j i := by
  unfold bump
  have e1 : (if i = r ∧ j = s then 1 else 0) = (if j = s ∧ i = r then 1 else 0) := by
    by_cases hc : i = r ∧ j = s
    · rw [if_pos hc, if_pos ⟨hc.2, hc.1⟩]
    · rw [if_neg hc, if_neg fun hc2 => hc ⟨hc2.2, hc2.1⟩]
  have e2 : (if i = s ∧ j = r then 1 else 0) = (if j = r ∧ i = s then 1 else 0) := by
    by_cases hc : i = s ∧ j = r
    · rw [if_pos hc, if_pos ⟨hc.2, hc.1⟩]
    · rw [if_neg hc, if_neg fun hc2 => hc ⟨hc2.2, hc2.1⟩]
  rw [h i j, e1, e2]
  ring

theorem max_mem_le (mb : List ℕ) : ∀ x ∈ mb, x ≤ maxLabel mb := by
  induction mb with
  | nil => intro x hx; cases hx
  | cons a l ih =>
    intro x hx
    rcases List.mem_cons.mp hx with h | h
    · subst h
      exact le_max_left _ _
    · exact le_trans (ih x h) (le_max_right _ _)

theorem getD_lt_dim (mb : List ℕ) (i : ℕ) (h : i < mb.length) :
    mb.getD i 0 < maxLabel mb + 1 := by
  have hmem : mb.getD i 0 ∈ mb := by
    rw [List.getD_eq_getElem mb 0 h]
    exact List.getElem_mem h
  exact Nat.lt_succ_of_le (max_mem_le mb _ hmem)

theorem get_m_e_rs_foldl (mb : List ℕ) (K : ℕ) :
    ∀ (el : List (ℕ × ℕ)) (M0 : Mat),
      (∀ e ∈ el, mb.getD e.1 0 < K ∧ mb.getD e.2 0 < K ∧ mb.getD e.1 0 ≠ mb.getD e.2 0) →
      (∀ i j, M0 i j = M0 j i) →
      ∃ M, el.foldl (get_m_e_rs_step mb) (some M0) = some M ∧
        (∀ i j, M i j = M j i) ∧ matSum K M = matSum K M0 + 2 * el.length := by
  intro el
  induction el with
  | nil =>
    intro M0 _ hsymm
    exact ⟨M0, rfl, hsymm, by simp⟩
  | cons e el ih =>
    intro M0 hel hsymm
    obtain ⟨hr, hs, hne⟩ := hel e (List.mem_cons_self e el)
    rw [List.foldl_cons]
    have hstep : get_m_e_rs_step mb (some M0) e =
        some (bump (bump M0 (mb.getD e.1 0) (mb.getD e.2 0)) (mb.getD e.2 0) (mb.getD e.1 0)) := by
      show (if mb.getD e.1 0 = mb.getD e.2 0 then none
        else some (bump (bump M0 (mb.getD e.1 0) (mb.getD e.2 0)) (mb.getD e.2 0)
          (mb.getD e.1 0))) = _
      rw [if_neg hne]
    rw [hstep]
    obtain ⟨M, hfold, hMsymm, hMsum⟩ := ih _ (fun x hx => hel x (List.mem_cons_of_mem e hx))
      (bump2_symm M0 _ _ hsymm)
    refine ⟨M, hfold, hMsymm, ?_⟩
    rw [hMsum]
    unfold matSum
    rw [show sum2 K K (bump (bump M0 (mb.getD e.1 0) (mb.getD e.2 0)) (mb.getD e.2 0) (mb.getD e.1 0)) =
        sum2 K K (bump M0 (mb.getD e.1 0) (mb.getD e.2 0)) + 1 from
      sum2_bump K K _ _ _ hs hr]
    rw [sum2_bump K K M0 _ _ hr hs]
    simp [List.length_cons]
    ring

theorem sum2_swap (m n : ℕ) (A : Mat) : sum2 m n (fun i j => A j i) = sum2 n m A := by
  unfold sum2
  exact Finset.sum_comm

theorem sum2_mergeRows (A : Mat) (m n : ℕ) :
    sum2 (m + 1) n (mergeRows 0 A) = sum2 (m + 2) n A := by
  unfold sum2 mergeRows
  rw [Finset.sum_range_succ' (fun i => ∑ j ∈ Finset.range n,
    (if i < 0 then A i j else if i = 0 then A i j + A (i + 1) j else A (i + 1) j)) m]
  rw [Finset.sum_range_succ' (fun i => ∑ j ∈ Finset.range n, A i j) (m + 1)]
  rw [Finset.sum_range_succ' (fun i => ∑ j ∈ Finset.range n, A (i + 1) j) m]
  have h1 : ∀ i : ℕ, (∑ j ∈ Finset.range n,
      (if i + 1 < 0 then A (i + 1) j
        else if i + 1 = 0 then A (i + 1) j + A (i + 1 + 1) j
        else A (i + 1 + 1) j)) = ∑ j ∈ Finset.range n, A (i + 1 + 1) j := by
    intro i
    exact Finset.sum_congr rfl fun j _ => by rw [if_neg (by omega), if_neg (by omega)]
  have h0 : (∑ j ∈ Finset.range n,
      (if (0 : ℕ) < 0 then A 0 j
        else if (0 : ℕ) = 0 then A 0 j + A (0 + 1) j
        else A (0 + 1) j)) =
      (∑ j ∈ Finset.range n, A 0 j) + ∑ j ∈ Finset.range n, A (0 + 1) j := by
    rw [Finset.sum_congr rfl (g := fun j => A 0 j + A (0 + 1) j) fun j _ => by
      rw [if_neg (by omega), if_pos rfl]]
    rw [Finset.sum_add_distrib]
  rw [Finset.sum_congr rfl fun i _ => h1 i, h0]
  ring

theorem sum2_permRows (A : Mat) (m n : ℕ) (perm : ℕ → ℕ)
    (hmaps : ∀ i ∈ Finset.range m, perm i ∈ Finset.range m)
    (hinj : ∀ i ∈ Finset.range m, ∀ j ∈ Finset.range m, perm i = perm j → i = j) :
    sum2 m n (fun i j => A (perm i) j) = sum2 m n A := by
  unfold sum2
  have hsurj := Finset.surj_on_of_inj_on_of_card_le (s := Finset.range m)
    (t := Finset.range m) (fun a _ => perm a) (fun a ha => hmaps a ha)
    (fun a₁ a₂ ha₁ ha₂ h => hinj a₁ ha₁ a₂ ha₂ h) le_rfl
  exact Finset.sum_bij (fun a _ => perm a) (fun a ha => hmaps a ha)
    (fun a₁ ha₁ a₂ ha₂ h => hinj a₁ ha₁ a₂ ha₂ h)
    (fun b hb => by
      obtain ⟨a, ha, hab⟩ := hsurj b hb
      exact ⟨a, ha, hab.symm⟩)
    (fun a ha => rfl)

theorem assembleC_TL (p q : ℕ) (B : Mat) (i j : ℕ) (hi : i < p) (hj : j < p) :
    assembleC p q B i j = 0 := by
  unfold assembleC
  rw [if_pos (by omega), if_neg (by omega), if_neg (by omega)]

theorem assembleC_TR (p q : ℕ) (B : Mat) (i j : ℕ) (hi : i < p) (hj : j < q) :
    assembleC p q B i (p + j) = B i j := by
  unfold assembleC
  rw [if_pos (by omega), if_neg (by omega), if_pos (by omega), Nat.add_sub_cancel_left]

theorem assembleC_BL (p q : ℕ) (B : Mat) (i j : ℕ) (hi : i < q) (hj : j < p) :
    assembleC p q B (p + i) j = B j i := by
  unfold assembleC
  rw [if_pos (by omega), if_pos (by omega), Nat.add_sub_cancel_left]

theorem assembleC_BR (p q : ℕ) (B : Mat) (i j : ℕ) (hi : i < q) (hj : j < q) :
    assembleC p q B (p + i) (p + j) = 0 := by
  unfold assembleC
  rw [if_pos (by omega), if_neg (by omega), if_neg (by omega)]

theorem matSum_assembleC (p q : ℕ) (B : Mat) :
    matSum (p + q) (assembleC p q B) = 2 * sum2 p q B := by
  unfold matSum sum2
  rw [Finset.sum_range_add (fun i => ∑ j ∈ Finset.range (p + q), assembleC p q B i j) p q]
  have hrow1 : ∀ i ∈ Finset.range p,
      (∑ j ∈ Finset.range (p + q), assembleC p q B i j) = ∑ j ∈ Finset.range q, B i j := by
    intro i hi
    rw [Finset.mem_range] at hi
    rw [Finset.sum_range_add (fun j => assembleC p q B i j) p q]
    rw [Finset.sum_congr rfl (g := fun _ => 0) fun j hj =>
      assembleC_TL p q B i j hi (Finset.mem_range.mp hj)]
    rw [Finset.sum_congr rfl (g := fun j => B i j) fun j hj =>
      assembleC_TR p q B i j hi (Finset.mem_range.mp hj)]
    simp
  have hrow2 : ∀ i ∈ Finset.range q,
      (∑ j ∈ Finset.range (p + q), assembleC p q B (p + i) j) = ∑ j ∈ Finset.range p, B j i := by
    intro i hi
    rw [Finset.mem_range] at hi
    rw [Finset.sum_range_add (fun j => assembleC p q B (p + i) j) p q]
    rw [Finset.sum_congr rfl (g := fun j => B j i) fun j hj =>
      assembleC_BL p q B i j hi (Finset.mem_range.mp hj)]
    rw [Finset.sum_congr rfl (g := fun _ => 0) fun j hj =>
      assembleC_BR p q B i j hi (Finset.mem_range.mp hj)]
    simp
  rw [Finset.sum_congr rfl hrow1, Finset.sum_congr rfl hrow2, Finset.sum_comm]
  ring

theorem matSum_bipartite (ka kb : ℕ) (M : Mat)
    (hsymm : ∀ i ∈ Finset.range (ka + kb), ∀ j ∈ Finset.range (ka + kb), M i j = M j i)
    (hzA : ∀ i ∈ Finset.range ka, ∀ j ∈ Finset.range ka, M i j = 0)
    (hzB : ∀ i ∈ Finset.range kb, ∀ j ∈ Finset.range kb, M (ka + i) (ka + j) = 0) :
    matSum (ka + kb) M = 2 * sum2 ka kb (fun i j => M i (ka + j)) := by
  unfold matSum sum2
  rw [Finset.sum_range_add (fun i => ∑ j ∈ Finset.range (ka + kb), M i j) ka kb]
  have hrow1 : ∀ i ∈ Finset.range ka,
      (∑ j ∈ Finset.range (ka + kb), M i j) = ∑ j ∈ Finset.range kb, M i (ka + j) := by
    intro i hi
    rw [Finset.sum_range_add (fun j => M i j) ka kb]
    rw [Finset.sum_congr rfl fun j hj => hzA i hi j hj]
    simp
  have hrow2 : ∀ i ∈ Finset.range kb,
      (∑ j ∈ Finset.range (ka + kb), M (ka + i) j) = ∑ j ∈ Finset.range ka, M j (ka + i) := by
    intro i hi
    rw [Finset.mem_range] at hi
    rw [Finset.sum_range_add (fun j => M (ka + i) j) ka kb]
    rw [Finset.sum_congr rfl (g := fun _ => (0 : ℕ))
      fun j hj => hzB i (Finset.mem_range.mpr hi) j hj]
    rw [Finset.sum_congr rfl (g := fun j => M j (ka + i))
      fun j hj => by
        rw [Finset.mem_range] at hj
        exact hsymm (ka + i) (Finset.mem_range.mpr (by omega)) j
          (Finset.mem_range.mpr (by omega))]
    simp
  rw [Finset.sum_congr rfl hrow1, Finset.sum_congr rfl hrow2, Finset.sum_comm]
  ring

theorem assembleC_symm (p q : ℕ) (B : Mat) (i j : ℕ) :
    assembleC p q B i j = assembleC p q B j i := by
  unfold assembleC
  split_ifs <;> first | rfl | omega

/-- The three mutually exclusive outcomes of `from_row` once the override
rules for `ka = 1` / `kb = 1` are applied to the sampled value. -/
theorem merge_from_row_cases (ka kb fromRow0 : ℕ) (hka : 1 ≤ ka) (hkb : 1 ≤ kb)
    (hkk : 3 ≤ ka + kb) (hfr0 : fromRow0 = 0 ∨ fromRow0 = ka) :
    (merge_from_row ka kb fromRow0 = 0 ∧ 2 ≤ ka) ∨
    (merge_from_row ka kb fromRow0 = ka ∧ merge_from_row ka kb fromRow0 ≠ 0 ∧ 2 ≤ kb) := by
  unfold merge_from_row
  by_cases h1 : ka = 1
  · rw [if_pos h1]
    right
    exact ⟨h1.symm ▸ rfl, by omega, by omega⟩
  · rw [if_neg h1]
    by_cases h2 : kb = 1
    · rw [if_pos h2]
      left
      exact ⟨rfl, by omega⟩
    · rw [if_neg h2]
      rcases hfr0 with h | h
      · left
        exact ⟨h, by omega⟩
      · right
        exact ⟨h, by omega, by omega⟩

/-- Evaluation of `merge_matrix` in the type-a branch (`from_row = 0`). -/
theorem merge_matrix_branch_a (ka kb : ℕ) (M : Mat) (fromRow0 : ℕ) (perm : ℕ → ℕ)
    (hfr : merge_from_row ka kb fromRow0 = 0) :
    merge_matrix ka kb M fromRow0 perm =
      { newKa := ka - 1, newKb := kb,
        c := assembleC (ka - 1) kb (mergeRows 0 (fun i j => M (perm i) (ka + j))),
        mergeList := (perm 0, perm 1) } := by
  simp only [merge_matrix]
  rw [if_pos hfr, hfr]

/-- Evaluation of `merge_matrix` in the type-b branch (`from_row = ka ≠ 0`). -/
theorem merge_matrix_branch_b (ka kb : ℕ) (M : Mat) (fromRow0 : ℕ) (perm : ℕ → ℕ)
    (hfr : merge_from_row ka kb fromRow0 = ka) (hfrne : merge_from_row ka kb fromRow0 ≠ 0) :
    merge_matrix ka kb M fromRow0 perm =
      { newKa := ka, newKb := kb - 1,
        c := assembleC ka (kb - 1) (fun i j =>
          mergeRows 0 (fun i2 j2 => M j2 (ka + perm i2)) j i),
        mergeList := (perm 0 + ka, perm 1 + ka) } := by
  simp only [merge_matrix]
  rw [if_neg hfrne, if_pos hfr, hfr, Nat.sub_self,
    show ka + 1 - ka = 1 from by omega]

/-- C2: the block-edge matrices the driver stores are symmetric and their
entries total `2·|E|`.  (a) A matrix built from an engine partition by
`get_m_e_rs_from_mb` (whose edges' endpoint blocks differ, so it returns) is
symmetric with entry total twice the edge count.  (b) `merge_matrix`, from a
symmetric `(ka+kb)²` input with zero same-type blocks, returns a symmetric
matrix with the entry total preserved — for either value of the row draw and
any shuffle of the merged side. -/
theorem driver_matrices_symmetric_and_sum_2E
    (edgelist : List (ℕ × ℕ)) (mb : List ℕ)
    (ka kb : ℕ) (M : Mat) (fromRow0 : ℕ) (perm : ℕ → ℕ)
    (hedges : ∀ e ∈ edgelist, e.1 < mb.length ∧ e.2 < mb.length ∧
      mb.getD e.1 0 ≠ mb.getD e.2 0)
    (hka : 1 ≤ ka) (hkb : 1 ≤ kb) (hkk : 3 ≤ ka + kb)
    (hfr0 : fromRow0 = 0 ∨ fromRow0 = ka)
    (hpa : merge_from_row ka kb fromRow0 = 0 →
      (∀ i ∈ Finset.range ka, perm i ∈ Finset.range ka) ∧
      (∀ i ∈ Finset.range ka, ∀ j ∈ Finset.range ka, perm i = perm j → i = j))
    (hpb : merge_from_row ka kb fromRow0 ≠ 0 →
      (∀ i ∈ Finset.range kb, perm i ∈ Finset.range kb) ∧
      (∀ i ∈ Finset.range kb, ∀ j ∈ Finset.range kb, perm i = perm j → i = j))
    (hsymm : ∀ i ∈ Finset.range (ka + kb), ∀ j ∈ Finset.range (ka + kb), M i j = M j i)
    (hzA : ∀ i ∈ Finset.range ka, ∀ j ∈ Finset.range ka, M i j = 0)
    (hzB : ∀ i ∈ Finset.range kb, ∀ j ∈ Finset.range kb, M (ka + i) (ka + j) = 0) :
    (∃ E, get_m_e_rs_from_mb edgelist mb = some E ∧ (∀ i j, E i j = E j i) ∧
      matSum (maxLabel mb + 1) E = 2 * edgelist.length) ∧
    ((∀ i j, (merge_matrix ka kb M fromRow0 perm).c i j =
        (merge_matrix ka kb M fromRow0 perm).c j i) ∧
      matSum ((merge_matrix ka kb M fromRow0 perm).newKa +
          (merge_matrix ka kb M fromRow0 perm).newKb)
        (merge_matrix ka kb M fromRow0 perm).c = matSum (ka + kb) M) := by
  constructor
  · obtain ⟨E, hfold, hsym, hsum⟩ := get_m_e_rs_foldl mb (maxLabel mb + 1) edgelist
      (fun _ _ => 0)
      (fun e he => ⟨getD_lt_dim mb e.1 (hedges e he).1,
        getD_lt_dim mb e.2 (hedges e he).2.1, (hedges e he).2.2⟩)
      (fun i j => rfl)
    refine ⟨E, hfold, hsym, ?_⟩
    rw [hsum]
    have hz : matSum (maxLabel mb + 1) (fun _ _ => 0) = 0 := by simp [matSum, sum2]
    omega
  · have hM2a := matSum_bipartite ka kb M hsymm hzA hzB
    rcases merge_from_row_cases ka kb fromRow0 hka hkb hkk hfr0 with
      ⟨hfr, hka2⟩ | ⟨hfr, hfrne, hkb2⟩
    · rw [merge_matrix_branch_a ka kb M fromRow0 perm hfr]
      obtain ⟨hmaps, hinj⟩ := hpa hfr
      refine ⟨fun i j => assembleC_symm (ka - 1) kb
        (mergeRows 0 (fun i j => M (perm i) (ka + j))) i j, ?_⟩
      show matSum ((ka - 1) + kb)
        (assembleC (ka - 1) kb (mergeRows 0 (fun i j => M (perm i) (ka + j)))) =
        matSum (ka + kb) M
      obtain ⟨m, rfl⟩ : ∃ m, ka = m + 2 := ⟨ka - 2, by omega⟩
      rw [show m + 2 - 1 = m + 1 from rfl]
      rw [matSum_assembleC (m + 1) kb (mergeRows 0 (fun i j => M (perm i) (m + 2 + j)))]
      rw [sum2_mergeRows (fun i j => M (perm i) (m + 2 + j)) m kb]
      rw [show sum2 (m + 2) kb (fun i j => M (perm i) (m + 2 + j)) =
          sum2 (m + 2) kb (fun i j => M i (m + 2 + j)) from
        sum2_permRows (fun i j => M i (m + 2 + j)) (m + 2) kb perm hmaps hinj]
      rw [hM2a]
    · rw [merge_matrix_branch_b ka kb M fromRow0 perm hfr hfrne]
      obtain ⟨hmaps, hinj⟩ := hpb hfrne
      refine ⟨fun i j => assembleC_symm ka (kb - 1)
        (fun i j => mergeRows 0 (fun i2 j2 => M j2 (ka + perm i2)) j i) i j, ?_⟩
      show matSum (ka + (kb - 1))
        (assembleC ka (kb - 1) (fun i j =>
          mergeRows 0 (fun i2 j2 => M j2 (ka + perm i2)) j i)) = matSum (ka + kb) M
      obtain ⟨m, rfl⟩ : ∃ m, kb = m + 2 := ⟨kb - 2, by omega⟩
      rw [show m + 2 - 1 = m + 1 from rfl]
      rw [matSum_assembleC ka (m + 1) (fun i j =>
        mergeRows 0 (fun i2 j2 => M j2 (ka + perm i2)) j i)]
      rw [show sum2 ka (m + 1) (fun i j =>
          mergeRows 0 (fun i2 j2 => M j2 (ka + perm i2)) j i) =
          sum2 (m + 1) ka (mergeRows 0 (fun i2 j2 => M j2 (ka + perm i2))) from
        sum2_swap ka (m + 1) (mergeRows 0 (fun i2 j2 => M j2 (ka + perm i2)))]
      rw [sum2_mergeRows (fun i2 j2 => M j2 (ka + perm i2)) m ka]
      rw [show sum2 (m + 2) ka (fun i j => M j (ka + perm i)) =
          sum2 (m + 2) ka (fun i j => M j (ka + i)) from
        sum2_permRows (fun i j => M j (ka + i)) (m + 2) ka perm hmaps hinj]
      rw [show sum2 (m + 2) ka (fun i j => M j (ka + i)) =
          sum2 ka (m + 2) (fun i j => M i (ka + j)) from
        sum2_swap (m + 2) ka (fun i j => M i (ka + j))]
      rw [hM2a]

/-- C2, witness: the edge list `[(0, 1)]` with partition `[0, 1]`, and a merge
at `(ka, kb) = (1, 2)` (forced to the type-b branch) with the identity
shuffle. -/
theorem driver_matrices_symmetric_and_sum_2E_witness :
    (∃ E, get_m_e_rs_from_mb [(0, 1)] [0, 1] = some E ∧ (∀ i j, E i j = E j i) ∧
      matSum (maxLabel [0, 1] + 1) E = 2 * [(0, 1)].length) ∧
    ((∀ i j, (merge_matrix 1 2 ex_merge_M 0 id).c i j =
        (merge_matrix 1 2 ex_merge_M 0 id).c j i) ∧
      matSum ((merge_matrix 1 2 ex_merge_M 0 id).newKa +
          (merge_matrix 1 2 ex_merge_M 0 id).newKb)
        (merge_matrix 1 2 ex_merge_M 0 id).c = matSum (1 + 2) ex_merge_M) :=
  driver_matrices_symmetric_and_sum_2E [(0, 1)] [0, 1] 1 2 ex_merge_M 0 id
    (by decide) (by decide) (by decide) (by decide) (Or.inl rfl)
    (fun h => absurd h (by decide))
    (fun _ => ⟨by decide, by decide⟩)
    (by decide) (by decide) (by decide)

/-- C9: `merge_matrix` always removes exactly one block from exactly one side
— `new_ka + new_kb = ka + kb - 1` with both sides still nonempty — and the
reported merged pair consists of two distinct labels of a single type; when
`ka = 1` the merged pair is always type-b, and when `kb = 1` always type-a. -/
theorem merge_matrix_reduces_one_side (ka kb : ℕ) (M : Mat) (fromRow0 : ℕ)
    (perm : ℕ → ℕ)
    (hka : 1 ≤ ka) (hkb : 1 ≤ kb) (hkk : 3 ≤ ka + kb)
    (hfr0 : fromRow0 = 0 ∨ fromRow0 = ka)
    (hpa : merge_from_row ka kb fromRow0 = 0 →
      (∀ i ∈ Finset.range ka, perm i ∈ Finset.range ka) ∧
      (∀ i ∈ Finset.range ka, ∀ j ∈ Finset.range ka, perm i = perm j → i = j))
    (hpb : merge_from_row ka kb fromRow0 ≠ 0 →
      (∀ i ∈ Finset.range kb, perm i ∈ Finset.range kb) ∧
      (∀ i ∈ Finset.range kb, ∀ j ∈ Finset.range kb, perm i = perm j → i = j)) :
    (merge_matrix ka kb M fromRow0 perm).newKa +
        (merge_matrix ka kb M fromRow0 perm).newKb = ka + kb - 1 ∧
    1 ≤ (merge_matrix ka kb M fromRow0 perm).newKa ∧
    1 ≤ (merge_matrix ka kb M fromRow0 perm).newKb ∧
    (((merge_matrix ka kb M fromRow0 perm).mergeList.1 < ka ∧
        (merge_matrix ka kb M fromRow0 perm).mergeList.2 < ka) ∨
      (ka ≤ (merge_matrix ka kb M fromRow0 perm).mergeList.1 ∧
        (merge_matrix ka kb M fromRow0 perm).mergeList.1 < ka + kb ∧
        ka ≤ (merge_matrix ka kb M fromRow0 perm).mergeList.2 ∧
        (merge_matrix ka kb M fromRow0 perm).mergeList.2 < ka + kb)) ∧
    (merge_matrix ka kb M fromRow0 perm).mergeList.1 ≠
      (merge_matrix ka kb M fromRow0 perm).mergeList.2 ∧
    (ka = 1 → ka ≤ (merge_matrix ka kb M fromRow0 perm).mergeList.1 ∧
      ka ≤ (merge_matrix ka kb M fromRow0 perm).mergeList.2) ∧
    (kb = 1 → (merge_matrix ka kb M fromRow0 perm).mergeList.1 < ka ∧
      (merge_matrix ka kb M fromRow0 perm).mergeList.2 < ka) := by
  rcases merge_from_row_cases ka kb fromRow0 hka hkb hkk hfr0 with
    ⟨hfr, hka2⟩ | ⟨hfr, hfrne, hkb2⟩
  · obtain ⟨hmaps, hinj⟩ := hpa hfr
    have e1 : (merge_matrix ka kb M fromRow0 perm).newKa = ka - 1 := by
      rw [merge_matrix_branch_a ka kb M fromRow0 perm hfr]
    have e2 : (merge_matrix ka kb M fromRow0 perm).newKb = kb := by
      rw [merge_matrix_branch_a ka kb M fromRow0 perm hfr]
    have e3 : (merge_matrix ka kb M fromRow0 perm).mergeList.1 = perm 0 := by
      rw [merge_matrix_branch_a ka kb M fromRow0 perm hfr]
    have e4 : (merge_matrix ka kb M fromRow0 perm).mergeList.2 = perm 1 := by
      rw [merge_matrix_branch_a ka kb M fromRow0 perm hfr]
    have hp0 : perm 0 < ka := Finset.mem_range.mp (hmaps 0 (Finset.mem_range.mpr (by omega)))
    have hp1 : perm 1 < ka := Finset.mem_range.mp (hmaps 1 (Finset.mem_range.mpr (by omega)))
    have hne : perm 0 ≠ perm 1 := fun h => by
      have := hinj 0 (Finset.mem_range.mpr (by omega)) 1 (Finset.mem_range.mpr (by omega)) h
      omega
    have hka1 : ka ≠ 1 := by omega
    rw [e1, e2, e3, e4]
    exact ⟨by omega, by omega, by omega, Or.inl ⟨hp0, hp1⟩, hne,
      fun h => absurd h hka1, fun _ => ⟨hp0, hp1⟩⟩
  · obtain ⟨hmaps, hinj⟩ := hpb hfrne
    have e1 : (merge_matrix ka kb M fromRow0 perm).newKa = ka := by
      rw [merge_matrix_branch_b ka kb M fromRow0 perm hfr hfrne]
    have e2 : (merge_matrix ka kb M fromRow0 perm).newKb = kb - 1 := by
      rw [merge_matrix_branch_b ka kb M fromRow0 perm hfr hfrne]
    have e3 : (merge_matrix ka kb M fromRow0 perm).mergeList.1 = perm 0 + ka := by
      rw [merge_matrix_branch_b ka kb M fromRow0 perm hfr hfrne]
    have e4 : (merge_matrix ka kb M fromRow0 perm).mergeList.2 = perm 1 + ka := by
      rw [merge_matrix_branch_b ka kb M fromRow0 perm hfr hfrne]
    have hp0 : perm 0 < kb := Finset.mem_range.mp (hmaps 0 (Finset.mem_range.mpr (by omega)))
    have hp1 : perm 1 < kb := Finset.mem_range.mp (hmaps 1 (Finset.mem_range.mpr (by omega)))
    have hne : perm 0 ≠ perm 1 := fun h => by
      have := hinj 0 (Finset.mem_range.mpr (by omega)) 1 (Finset.mem_range.mpr (by omega)) h
      omega
    have hkb1 : kb ≠ 1 := by omega
    rw [e1, e2, e3, e4]
    exact ⟨by omega, by omega, by omega, Or.inr ⟨by omega, by omega, by omega, by omega⟩,
      by omega, fun _ => ⟨by omega, by omega⟩, fun h => absurd h hkb1⟩

/-- C9, witness: `(ka, kb) = (2, 1)` forces a type-a merge with the identity
shuffle. -/
theorem merge_matrix_reduces_one_side_witness :
    (merge_matrix 2 1 ex_merge_M 0 id).newKa +
        (merge_matrix 2 1 ex_merge_M 0 id).newKb = 2 + 1 - 1 ∧
    1 ≤ (merge_matrix 2 1 ex_merge_M 0 id).newKa ∧
    1 ≤ (merge_matrix 2 1 ex_merge_M 0 id).newKb ∧
    (((merge_matrix 2 1 ex_merge_M 0 id).mergeList.1 < 2 ∧
        (merge_matrix 2 1 ex_merge_M 0 id).mergeList.2 < 2) ∨
      (2 ≤ (merge_matrix 2 1 ex_merge_M 0 id).mergeList.1 ∧
        (merge_matrix 2 1 ex_merge_M 0 id).mergeList.1 < 2 + 1 ∧
        2 ≤ (merge_matrix 2 1 ex_merge_M 0 id).mergeList.2 ∧
        (merge_matrix 2 1 ex_merge_M 0 id).mergeList.2 < 2 + 1)) ∧
    (merge_matrix 2 1 ex_merge_M 0 id).mergeList.1 ≠
      (merge_matrix 2 1 ex_merge_M 0 id).mergeList.2 ∧
    (2 = 1 → 2 ≤ (merge_matrix 2 1 ex_merge_M 0 id).mergeList.1 ∧
      2 ≤ (merge_matrix 2 1 ex_merge_M 0 id).mergeList.2) ∧
    (1 = 1 → (merge_matrix 2 1 ex_merge_M 0 id).mergeList.1 < 2 ∧
      (merge_matrix 2 1 ex_merge_M 0 id).mergeList.2 < 2) :=
  merge_matrix_reduces_one_side 2 1 ex_merge_M 0 id
    (by decide) (by decide) (by decide) (Or.inl rfl)
    (fun _ => ⟨by decide, by decide⟩)
    (fun h => absurd (by decide : merge_from_row 2 1 0 = 0) h)

end BipartiteSBM
